import Mathlib

/-!
Verification development for the historee domain-statistics pipeline
(src/main.py). Strings are modelled as lists of characters; character
class predicates (alphabetic, lowercase, uppercase) are modelled over
ASCII, matching Lean's Char.isAlpha / Char.isLower / Char.isUpper.
Compiled regular expressions are modelled by a small abstract syntax
(RAtom / Rule) together with a backtracking matcher that mirrors the
Python re engine's leftmost, greedy, first-match-found semantics for
the constructs the rule files use; re.match anchors at the start of
the string only, while a trailing $ (endAnchored) also requires the
match to reach the end.
-/

namespace Historee

/-- Strings as lists of characters. -/
abbrev Str := List Char

/-- Group-free regular-expression atoms: empty, a literal character,
the wildcard dot, a negated single-character class, concatenation and
Kleene star. -/
inductive RAtom where
  | eps
  | lit (c : Char)
  | anyChar
  | notChar (c : Char)
  | cat (r1 r2 : RAtom)
  | star (r : RAtom)
deriving DecidableEq

/-- r+ as r followed by r*. -/
def RAtom.plus (r : RAtom) : RAtom := .cat r (.star r)

/-- A literal word as a concatenation of literal characters. -/
def lits (l : Str) : RAtom := l.foldr (fun c acc => RAtom.cat (.lit c) acc) .eps

/-- Greedy Kleene-star matcher on top of a matcher for the body: the
result list holds every possible remaining suffix, highest backtracking
priority (longest consumption) first; an iteration must consume at
least one character, and the fuel bounds the number of iterations. -/
def mstar (m : Str → List Str) : Nat → Str → List Str
  | 0, s => [s]
  | fuel + 1, s =>
      ((m s).filter (fun s2 => s2.length < s.length)).flatMap
        (fun s2 => mstar m fuel s2) ++ [s]

/-- Matcher for group-free atoms: all suffixes remaining after a match
of the atom at the start of the string, in backtracking priority order
(greedy, as in the Python re engine). -/
def mlist : RAtom → Str → List Str
  | .eps, s => [s]
  | .lit _, [] => []
  | .lit c, c2 :: rest => if c2 = c then [rest] else []
  | .anyChar, [] => []
  | .anyChar, _ :: rest => [rest]
  | .notChar _, [] => []
  | .notChar c, c2 :: rest => if c2 = c then [] else [rest]
  | .cat r1 r2, s => (mlist r1 s).flatMap (fun s2 => mlist r2 s2)
  | .star r, s => mstar (mlist r) s.length s

/-- A compiled rule: the part before the (single) capture group, the
optional capture group body, the part after it, and whether the pattern
ends with the $ anchor. Rule files conventionally use exactly one
capture group; a pattern with no group never rewrites (the code tests
match.groups() for truthiness). -/
structure Rule where
  pre : RAtom
  grp : Option RAtom
  post : RAtom
  endAnchored : Bool
deriving DecidableEq

/-- All values of the first capture group over matches of the whole
pattern at the start of the string, in backtracking priority order.
Python's re.match returns the first of these. -/
def Rule.matchCaptures (r : Rule) (s : Str) : List Str :=
  (mlist r.pre s).flatMap (fun s1 =>
    (mlist (r.grp.getD .eps) s1).flatMap (fun s2 =>
      (mlist r.post s2).filterMap (fun s3 =>
        if r.endAnchored then
          (if s3 = [] then some (s1.take (s1.length - s2.length)) else none)
        else some (s1.take (s1.length - s2.length)))))

/-- What one iteration of the loop in apply_pattern_normalization does
with one compiled pattern: if the pattern has at least one group and
re.match succeeds, the first capture group's text (possibly empty),
otherwise nothing. -/
def Rule.applyOpt (r : Rule) (s : Str) : Option Str :=
  if r.grp.isSome then (r.matchCaptures s).head? else none

/-- src/main.py apply_pattern_normalization: try patterns in order;
return the first capture group of the first pattern that matches and
has groups; otherwise return the domain unchanged. -/
def apply_pattern_normalization (domain : Str) : List Rule → Str
  | [] => domain
  | p :: ps =>
      match p.applyOpt domain with
      | some cap => cap
      | none => apply_pattern_normalization domain ps

/-- Python str.split on the dot character. -/
def splitDots : Str → List Str
  | [] => [[]]
  | c :: rest =>
      match splitDots rest with
      | [] => [[]]
      | p :: ps => if c = '.' then [] :: p :: ps else (c :: p) :: ps

/-- src/main.py normalize_domain: keep only the last three dot-separated
labels when the domain has more than two dots, then apply pattern
normalization when the rule list is non-empty. -/
def normalize_domain (domain : Str) (patterns : List Rule) : Str :=
  if domain = [] then domain
  else
    let dot_count := domain.count '.'
    let normalized :=
      if dot_count ≤ 2 then domain
      else
        let parts := splitDots domain
        List.intercalate ['.'] (parts.drop (parts.length - 3))
    if patterns = [] then normalized
    else apply_pattern_normalization normalized patterns

/-- The substring after the last dot (the whole string when no dot). -/
def afterLastDot (l : Str) : Str :=
  (l.reverse.takeWhile (fun c => c ≠ '.')).reverse

/-- Python str.isalpha over the ASCII model: non-empty and all
characters alphabetic. -/
def pyIsAlpha (l : Str) : Bool :=
  !l.isEmpty && l.all (fun c => c.isAlpha)

/-- Python str.islower over the ASCII model: at least one cased
character is lowercase and no character is uppercase. -/
def pyIsLower (l : Str) : Bool :=
  l.any (fun c => c.isLower) && l.all (fun c => !c.isUpper)

/-- src/main.py has_valid_tld. -/
def has_valid_tld (domain : Str) : Bool :=
  if domain.isEmpty then false
  else if domain.length < 3 || !domain.contains '.' then false
  else
    let tld := afterLastDot domain
    if tld.isEmpty then false
    else decide (2 ≤ tld.length) && pyIsLower tld && pyIsAlpha tld

/-- A raw URL from the record store, modelled by the outcome of
urlparse(url).netloc: none when parsing raises an exception, some h
for the extracted host component (possibly empty). -/
structure RawURL where
  parseResult : Option Str
deriving DecidableEq

/-- The batch-local accumulation of src/main.py process_url_batch:
the set of unique normalized domains, the per-domain visit counts
(a Python Counter whose counts are only ever incremented, modelled as
a multiset whose multiplicities are the counts), and the number of
rejected entries. Also the shape of the merged final result. -/
structure BatchResult where
  domains : Finset Str
  counts : Multiset Str
  removed : Nat
deriving DecidableEq

/-- The initial empty accumulator of a batch (and of the merge). -/
def emptyResult : BatchResult := ⟨∅, 0, 0⟩

/-- One iteration of the per-URL loop in process_url_batch. -/
def processURL (patterns : List Rule) (acc : BatchResult) (u : RawURL) : BatchResult :=
  match u.parseResult with
  | none => acc
  | some domain =>
    if domain = [] then acc
    else if !has_valid_tld domain then
      { acc with removed := acc.removed + 1 }
    else
      let normalized_domain := normalize_domain domain patterns
      if !has_valid_tld normalized_domain then
        { acc with removed := acc.removed + 1 }
      else
        { acc with
            domains := insert normalized_domain acc.domains,
            counts := normalized_domain ::ₘ acc.counts }

/-- src/main.py process_url_batch. -/
def process_url_batch (batch_urls : List RawURL) (patterns : List Rule) : BatchResult :=
  batch_urls.foldl (processURL patterns) emptyResult

/-- Merging one batch's result into the running aggregate, as in
extract_domains_from_urls: set union, per-key count summation,
rejected-count summation. -/
def mergeTwo (a b : BatchResult) : BatchResult :=
  ⟨a.domains ∪ b.domains, a.counts + b.counts, a.removed + b.removed⟩

/-- Merging a sequence of batch results in the order given. -/
def mergeResults (rs : List BatchResult) : BatchResult :=
  rs.foldl mergeTwo emptyResult

/-- Contiguous batches of size bs (the last one may be shorter), as
produced by the slicing loop in extract_domains_from_urls. -/
def listChunks {α : Type} (bs : Nat) : List α → List (List α)
  | [] => []
  | x :: xs =>
      if bs = 0 then []
      else (x :: xs).take bs :: listChunks bs ((x :: xs).drop bs)
termination_by l => l.length
decreasing_by
  rename_i h
  have h1 : 0 < bs := Nat.pos_of_ne_zero h
  simp only [List.length_drop, List.length_cons]
  omega

/-- The sequential execution path of extract_domains_from_urls:
process contiguous batches in order and merge each result into the
aggregate. The parallel path merges the same per-batch results in
completion order, i.e. in some permutation of this list. -/
def extract_domains_sequential (urls : List RawURL) (patterns : List Rule)
    (bs : Nat) : BatchResult :=
  mergeResults ((listChunks bs urls).map (fun b => process_url_batch b patterns))

/-- Whether urlparse succeeded and produced a non-empty host. -/
def hasNonemptyHost (u : RawURL) : Bool :=
  match u.parseResult with
  | some h => !h.isEmpty
  | none => false

/-! ## Pattern loading (load_domain_patterns)

Reading a file is modelled by an `Option (List Str)` (none when the
file does not exist, otherwise its lines), and re.compile by an
abstract function `compile : Str → Option Rule` (none when the pattern
string fails to compile). -/

/-- Python str.strip: drop leading and trailing whitespace. -/
def pyStrip (l : Str) : Str :=
  ((l.dropWhile Char.isWhitespace).reverse.dropWhile Char.isWhitespace).reverse

/-- The pattern-collection loop: strip each line, keep the non-empty
lines that do not start with '#', paired with their 1-based line
numbers. -/
def collectLines (lines : List Str) : List (Str × Nat) :=
  (lines.enum.map (fun p => (pyStrip p.2, p.1 + 1))).filter
    (fun pl => !pl.1.isEmpty && pl.1.head? != some '#')

/-- The compilation loop: compile the collected patterns in order,
accumulating the compiled rules and the line numbers of the lines that
failed to compile. -/
def compileAll (compile : Str → Option Rule) (pats : List (Str × Nat)) :
    List Rule × List Nat :=
  pats.foldl
    (fun acc pl =>
      match compile pl.1 with
      | some r => (acc.1 ++ [r], acc.2)
      | none => (acc.1, acc.2 ++ [pl.2]))
    ([], [])

/-- The fatal outcomes of load_domain_patterns. -/
inductive LoadError where
  | fileNotFound (path : Str)
  | invalidPatterns (path : Str) (failing : List Nat)
  | noUsablePatterns
deriving DecidableEq

/-- The explicit-path (strict) branch of src/main.py
load_domain_patterns: the file must exist; all collected lines are
compiled; if any fails, the whole load fails with the file name and
every failing line number, otherwise the full compiled list is
returned in file order. -/
def load_domain_patterns_strict (compile : Str → Option Rule) (path : Str)
    (file : Option (List Str)) : Except LoadError (List Rule) :=
  match file with
  | none => .error (.fileNotFound path)
  | some lines =>
      let res := compileAll compile (collectLines lines)
      if res.2 = [] then .ok res.1
      else .error (.invalidPatterns path res.2)

/-- The built-in default pattern sources of src/main.py (the
default_patterns list), in order. -/
def default_patterns_src : List Str :=
  ["^.+\\.(cloudfront\\.net)$", "^.+\\.(amazonaws\\.com)$",
   "^.+\\.(herokuapp\\.com)$", "^.+\\.(netlify\\.app)$",
   "^.+\\.(vercel\\.app)$", "^.+\\.(github\\.io)$",
   "^.+\\.(firebaseapp\\.com)$", "^.+\\.(appspot\\.com)$",
   "^.+\\.(azurewebsites\\.net)$", "^.+\\.(cloudflare\\.com)$",
   "^.+\\.(fastly\\.com)$", "^.+\\.(cdn\\.com)$", "^.+\\.(cdn\\.net)$",
   "^.+\\.(cdn\\.org)$", "^.+\\.(s3\\.amazonaws\\.com)$",
   "^.+\\.(s3-website-[^.]+\\.amazonaws\\.com)$",
   "^.+\\.(elasticbeanstalk\\.com)$", "^.+\\.(railway\\.app)$",
   "^.+\\.(render\\.com)$", "^.+\\.(fly\\.io)$",
   "^.+\\.(digitaloceanspaces\\.com)$", "^.+\\.(bunnycdn\\.com)$",
   "^.+\\.(stackpathcdn\\.com)$", "^.+\\.(keycdn\\.com)$"].map String.toList

/-- The collected pattern lines of the conventional default file: none
when the file does not exist, otherwise its non-empty non-comment
lines with their line numbers. -/
def filePats (defaultFile : Option (List Str)) : List (Str × Nat) :=
  match defaultFile with
  | none => []
  | some lines => collectLines lines

/-- The built-in default pattern list paired with 1-based positions,
as enumerated by the fallback loop. -/
def builtinPats : List (Str × Nat) :=
  default_patterns_src.enum.map (fun p => (p.2, p.1 + 1))

/-- The no-path (lenient) branch of src/main.py load_domain_patterns:
compile the default file's lines (if the file exists), dropping lines
that fail to compile; if no rule survives, compile the built-in
default list; fail only if that also yields no rule. -/
def load_domain_patterns_lenient (compile : Str → Option Rule)
    (defaultFile : Option (List Str)) : Except LoadError (List Rule) :=
  let res := compileAll compile (filePats defaultFile)
  if res.1 ≠ [] then .ok res.1
  else
    let dres := compileAll compile builtinPats
    if dres.1 ≠ [] then .ok dres.1
    else .error .noUsablePatterns

/-! ## Spec-side definitions for the rule step

These follow the wording of the specification rather than the source
and are used to compare the two for the rule-step claim. -/

/-- Modelled from the spec: capture values under anchored start-to-end
semantics, i.e. matches of the whole pattern that consume the entire
string, in backtracking priority order. -/
def Rule.fullCaptures (r : Rule) (s : Str) : List Str :=
  (mlist r.pre s).flatMap (fun s1 =>
    (mlist (r.grp.getD .eps) s1).flatMap (fun s2 =>
      (mlist r.post s2).filterMap (fun s3 =>
        if s3 = [] then some (s1.take (s1.length - s2.length)) else none)))

/-- Modelled from the spec: a rule applies when its pattern matches
the domain start-to-end and yields a non-empty first capture group. -/
def specRuleApply (r : Rule) (s : Str) : Option Str :=
  ((r.fullCaptures s).filter (fun c => !c.isEmpty)).head?

/-- Modelled from the spec: iterate the rules in order, replace the
domain with the capture of the first rule that applies in the spec's
sense, and return the domain unchanged if none applies. -/
def apply_pattern_spec (domain : Str) : List Rule → Str
  | [] => domain
  | p :: ps =>
      match specRuleApply p domain with
      | some cap => cap
      | none => apply_pattern_spec domain ps

/-- The compiled rule ^.+\.(cloudfront\.net)$ from the spec's example
(also the first built-in default pattern). -/
def cloudfrontRule : Rule :=
  ⟨.cat (RAtom.plus .anyChar) (.lit '.'),
   some (lits "cloudfront.net".toList), .eps, true⟩

/-- The compiled rule (b*): matches at the start of any string, has
one capture group, and its capture is empty unless the string starts
with b. -/
def ruleBStar : Rule := ⟨.eps, some (.star (.lit 'b')), .eps, false⟩

/-- The implicit result invariant: the unique-domain set is exactly
the key set of the count mapping, and every count of a key is at
least 1. -/
def ResultInv (r : BatchResult) : Prop :=
  r.domains = r.counts.toFinset ∧ ∀ d ∈ r.domains, 1 ≤ r.counts.count d

/-! ## Helper lemmas -/

/-- Splitting on dots yields one more label than there are dots. -/
lemma splitDots_length (d : Str) : (splitDots d).length = d.count '.' + 1 := by
  induction d with
  | nil => simp [splitDots]
  | cons c rest ih =>
      simp only [splitDots]
      cases h : splitDots rest with
      | nil => rw [h] at ih; simp at ih
      | cons p ps =>
          rw [h] at ih
          by_cases hc : c = '.' <;>
            simp [hc, List.count_cons] at ih ⊢ <;> omega

/-- Normalizing with an already-normal domain and a fixpoint rule list
changes nothing. -/
lemma normalize_domain_fixpoint (d : Str) (R : List Rule)
    (h1 : d.count '.' ≤ 2) (h2 : apply_pattern_normalization d R = d) :
    normalize_domain d R = d := by
  by_cases hd : d = []
  · simp [normalize_domain, hd]
  · by_cases hR : R = []
    · simp [normalize_domain, hd, h1, hR]
    · simp [normalize_domain, hd, h1, hR, h2]

/-- The last TLD condition of has_valid_tld, as a disjunction of
failure reasons, for a non-empty TLD candidate. -/
lemma tld_cond_iff (t : Str) (ht : t ≠ []) :
    (decide (2 ≤ t.length) && pyIsLower t && pyIsAlpha t) = false ↔
      (t.length < 2 ∨ (∃ c ∈ t, ¬ c.isAlpha) ∨ (∃ c ∈ t, c.isUpper)) := by
  rw [Bool.eq_false_iff]
  simp only [Ne, Bool.and_eq_true, decide_eq_true_eq, pyIsLower, pyIsAlpha,
    List.any_eq_true, List.all_eq_true, Bool.not_eq_true', Bool.not_eq_true]
  constructor
  · intro h
    by_contra hcon
    push_neg at hcon
    obtain ⟨hl2, halpha, hupper⟩ := hcon
    refine h ⟨⟨hl2, ?_, ?_⟩, ?_, ?_⟩
    · obtain ⟨c, hc⟩ := List.exists_mem_of_ne_nil t ht
      have ha : c.isAlpha = true := Bool.ne_false_iff.mp (halpha c hc)
      have hu : c.isUpper = false := Bool.eq_false_iff.mpr (hupper c hc)
      refine ⟨c, hc, ?_⟩
      simp only [Char.isAlpha, hu, Bool.false_or] at ha
      exact ha
    · exact fun c hc => Bool.eq_false_iff.mpr (hupper c hc)
    · simp [ht]
    · exact fun c hc => Bool.ne_false_iff.mp (halpha c hc)
  · rintro (h | ⟨c, hc, hf⟩ | ⟨c, hc, hu⟩) hconj
    · obtain ⟨⟨hlen, _, _⟩, _, _⟩ := hconj
      omega
    · obtain ⟨_, _, hal⟩ := hconj
      rw [hal c hc] at hf
      exact absurd hf (by simp)
    · obtain ⟨⟨_, _, hup⟩, _, _⟩ := hconj
      rw [hup c hc] at hu
      exact absurd hu (by simp)

/-- Merging is associative. -/
lemma mergeTwo_assoc (a b c : BatchResult) :
    mergeTwo (mergeTwo a b) c = mergeTwo a (mergeTwo b c) := by
  simp [mergeTwo, Finset.union_assoc, add_assoc]

/-- Merging is commutative. -/
lemma mergeTwo_comm (a b : BatchResult) : mergeTwo a b = mergeTwo b a := by
  simp [mergeTwo, Finset.union_comm, add_comm]

/-- The empty result is a left unit for merging. -/
lemma mergeTwo_empty_left (b : BatchResult) : mergeTwo emptyResult b = b := by
  simp [mergeTwo, emptyResult]

/-- The empty result is a right unit for merging. -/
lemma mergeTwo_empty_right (a : BatchResult) : mergeTwo a emptyResult = a := by
  simp [mergeTwo, emptyResult]

/-- The per-URL step commutes with merging a fixed aggregate on the
left: each step only adds to the accumulator. -/
lemma processURL_merge (patterns : List Rule) (a acc : BatchResult) (u : RawURL) :
    processURL patterns (mergeTwo a acc) u = mergeTwo a (processURL patterns acc u) := by
  unfold processURL
  cases u.parseResult with
  | none => rfl
  | some domain =>
      by_cases h1 : domain = []
      · simp [h1]
      · by_cases h2 : has_valid_tld domain
        · by_cases h3 : has_valid_tld (normalize_domain domain patterns)
          · simp [h1, h2, h3, mergeTwo, Finset.union_insert, add_assoc]
          · simp [h1, h2, h3, mergeTwo, add_assoc]
        · simp [h1, h2, mergeTwo, add_assoc]

/-- Folding the per-URL step over a list commutes with a fixed
left-merged aggregate. -/
lemma foldl_processURL_merge (patterns : List Rule) (l : List RawURL)
    (a : BatchResult) :
    ∀ acc, l.foldl (processURL patterns) (mergeTwo a acc)
      = mergeTwo a (l.foldl (processURL patterns) acc) := by
  induction l with
  | nil => intro acc; rfl
  | cons u us ih =>
      intro acc
      simp only [List.foldl_cons, processURL_merge]
      exact ih _

/-- Processing a concatenation equals merging the two results. -/
lemma process_url_batch_append (l1 l2 : List RawURL) (patterns : List Rule) :
    process_url_batch (l1 ++ l2) patterns =
      mergeTwo (process_url_batch l1 patterns) (process_url_batch l2 patterns) := by
  unfold process_url_batch
  rw [List.foldl_append]
  have h := foldl_processURL_merge patterns l2
    (l1.foldl (processURL patterns) emptyResult) emptyResult
  rw [mergeTwo_empty_right] at h
  exact h

/-- Folding the merge from a merged seed. -/
lemma foldl_mergeTwo_acc (l : List BatchResult) (a : BatchResult) :
    ∀ b, l.foldl mergeTwo (mergeTwo a b) = mergeTwo a (l.foldl mergeTwo b) := by
  induction l with
  | nil => intro b; rfl
  | cons r rs ih =>
      intro b
      simp only [List.foldl_cons]
      rw [mergeTwo_assoc]
      exact ih _

/-- Merging a cons is merging the head into the merge of the tail. -/
lemma mergeResults_cons (r : BatchResult) (rs : List BatchResult) :
    mergeResults (r :: rs) = mergeTwo r (mergeResults rs) := by
  unfold mergeResults
  simp only [List.foldl_cons, mergeTwo_empty_left]
  have h := foldl_mergeTwo_acc rs r emptyResult
  rw [mergeTwo_empty_right] at h
  exact h

/-- The batching loop on the empty list. -/
lemma listChunks_nil {α : Type} (bs : Nat) : listChunks bs ([] : List α) = [] := by
  rw [listChunks]

/-- One unfolding step of the batching loop on a non-empty list. -/
lemma listChunks_cons {α : Type} (bs : Nat) (h : bs ≠ 0) (x : α) (xs : List α) :
    listChunks bs (x :: xs)
      = (x :: xs).take bs :: listChunks bs ((x :: xs).drop bs) := by
  rw [listChunks]
  simp [h]

/-- Merging the per-batch results of the contiguous batches of any
positive size equals processing the whole input as one batch. -/
lemma extract_eq_single (urls : List RawURL) (patterns : List Rule) (bs : Nat)
    (h : 0 < bs) :
    extract_domains_sequential urls patterns bs = process_url_batch urls patterns := by
  unfold extract_domains_sequential
  suffices hgen : ∀ (n : Nat) (l : List RawURL), l.length ≤ n →
      mergeResults ((listChunks bs l).map (fun b => process_url_batch b patterns))
        = process_url_batch l patterns from hgen urls.length urls le_rfl
  intro n
  induction n with
  | zero =>
      intro l hl
      have hnil : l = [] := List.eq_nil_of_length_eq_zero (Nat.le_zero.mp hl)
      subst hnil
      rw [listChunks_nil]
      rfl
  | succ n ih =>
      intro l hl
      cases l with
      | nil =>
          rw [listChunks_nil]
          rfl
      | cons x xs =>
          rw [listChunks_cons bs (Nat.pos_iff_ne_zero.mp h) x xs]
          simp only [List.map_cons]
          rw [mergeResults_cons]
          rw [ih ((x :: xs).drop bs) (by
            simp only [List.length_cons] at hl
            simp only [List.length_drop, List.length_cons]
            omega)]
          rw [← process_url_batch_append, List.take_append_drop]

/-- Merging in any completion order yields the same aggregate. -/
lemma mergeResults_perm {l1 l2 : List BatchResult} (h : l1.Perm l2) :
    mergeResults l1 = mergeResults l2 :=
  h.foldl_eq'
    (fun x _ y _ z => by
      rw [mergeTwo_assoc, mergeTwo_assoc, mergeTwo_comm x y])
    emptyResult

/-- Per-step conservation: each URL adds 1 to counts-plus-removed
exactly when its extracted host is non-empty. -/
lemma processURL_conservation (patterns : List Rule) (acc : BatchResult)
    (u : RawURL) :
    (processURL patterns acc u).counts.card + (processURL patterns acc u).removed
      = acc.counts.card + acc.removed + (if hasNonemptyHost u then 1 else 0) := by
  unfold processURL hasNonemptyHost
  cases u.parseResult with
  | none => simp
  | some domain =>
      by_cases h1 : domain = []
      · simp [h1]
      · by_cases h2 : has_valid_tld domain
        · by_cases h3 : has_valid_tld (normalize_domain domain patterns)
          · simp [h1, h2, h3]
            omega
          · simp [h1, h2, h3]
            omega
        · simp [h1, h2]
          omega

/-- Batch conservation: counts-plus-removed equals the number of URLs
with a non-empty extracted host. -/
lemma batch_conservation (l : List RawURL) (patterns : List Rule) :
    (process_url_batch l patterns).counts.card
        + (process_url_batch l patterns).removed
      = (l.filter hasNonemptyHost).length := by
  unfold process_url_batch
  suffices hgen : ∀ acc : BatchResult,
      (l.foldl (processURL patterns) acc).counts.card
          + (l.foldl (processURL patterns) acc).removed
        = acc.counts.card + acc.removed + (l.filter hasNonemptyHost).length by
    have h := hgen emptyResult
    simpa [emptyResult] using h
  induction l with
  | nil => intro acc; simp
  | cons u us ih =>
      intro acc
      simp only [List.foldl_cons, List.filter_cons]
      rw [ih (processURL patterns acc u), processURL_conservation]
      by_cases hu : hasNonemptyHost u
      · simp [hu]
        omega
      · simp [hu]

/-- The compile loop accumulates exactly the compiling patterns (in
order) and the line numbers of the failing ones (in order). -/
lemma compileAll_spec (compile : Str → Option Rule) (pats : List (Str × Nat)) :
    compileAll compile pats
      = (pats.filterMap (fun pl => compile pl.1),
         (pats.filter (fun pl => (compile pl.1).isNone)).map Prod.snd) := by
  unfold compileAll
  suffices hgen : ∀ acc : List Rule × List Nat,
      pats.foldl
        (fun acc pl =>
          match compile pl.1 with
          | some r => (acc.1 ++ [r], acc.2)
          | none => (acc.1, acc.2 ++ [pl.2])) acc
      = (acc.1 ++ pats.filterMap (fun pl => compile pl.1),
         acc.2 ++ (pats.filter (fun pl => (compile pl.1).isNone)).map Prod.snd) by
    simpa using hgen ([], [])
  induction pats with
  | nil => intro acc; simp
  | cons pl rest ih =>
      intro acc
      simp only [List.foldl_cons, List.filterMap_cons, List.filter_cons]
      cases hc : compile pl.1 with
      | some r => simp [hc, ih]
      | none => simp [hc, ih]

/-! ## Claims -/

/-- C5: TLD validation: has_valid_tld d is false exactly when d is
empty, or shorter than 3 characters, or has no dot, or the substring
after the last dot is empty, shorter than 2 characters, contains a
non-alphabetic character, or contains an uppercase character;
concretely, "example.com" is valid while "example.c1", "EXAMPLE.COM"
and "noTLD" are not. -/
theorem C5_tld_validation :
    (∀ d : Str, has_valid_tld d = false ↔
      (d = [] ∨ d.length < 3 ∨ ¬ '.' ∈ d ∨ afterLastDot d = [] ∨
        (afterLastDot d).length < 2 ∨ (∃ c ∈ afterLastDot d, ¬ c.isAlpha) ∨
        (∃ c ∈ afterLastDot d, c.isUpper)))
    ∧ has_valid_tld "example.com".toList = true
    ∧ has_valid_tld "example.c1".toList = false
    ∧ has_valid_tld "EXAMPLE.COM".toList = false
    ∧ has_valid_tld "noTLD".toList = false := by
  refine ⟨?_, by decide, by decide, by decide, by decide⟩
  intro d
  by_cases hd : d = []
  · subst hd; simp [has_valid_tld]
  · by_cases hlen : d.length < 3
    · simp [has_valid_tld, hd, hlen]
    · by_cases hcont : '.' ∈ d
      · by_cases htld : afterLastDot d = []
        · simp [has_valid_tld, hd, hlen, hcont, htld, List.contains]
        · have heq : has_valid_tld d =
              (decide (2 ≤ (afterLastDot d).length) && pyIsLower (afterLastDot d) &&
                pyIsAlpha (afterLastDot d)) := by
            simp [has_valid_tld, hd, hlen, hcont, htld, List.contains]
          rw [heq, tld_cond_iff (afterLastDot d) htld]
          simp [hd, hlen, hcont, htld]
      · simp [has_valid_tld, hd, hlen, hcont, List.contains]

/-- C5 witness: the characterization applied to a concrete dotless
domain, which it classifies as invalid. -/
theorem C5_witness : has_valid_tld "noTLD".toList = false :=
  (C5_tld_validation.1 "noTLD".toList).mpr
    (Or.inr (Or.inr (Or.inl (by decide))))

/-- C4, corrected part exhibited concretely: with the single rule (b*)
and domain "ab", the code's rule step returns the (empty) capture of a
match that neither spans the whole domain nor captures anything, while
the spec-side anchored, non-empty-capture rule step would leave "ab"
unchanged; so the claim's description of apply_pattern_normalization
fails on this input. -/
theorem C4_counterexample :
    apply_pattern_normalization "ab".toList [ruleBStar] = [] ∧
    apply_pattern_spec "ab".toList [ruleBStar] = "ab".toList ∧
    apply_pattern_normalization "ab".toList [ruleBStar] ≠
      apply_pattern_spec "ab".toList [ruleBStar] := by
  refine ⟨by decide, by decide, by decide⟩

/-- C4, amended: the rule step returns the first capture group of the
first rule (in list order) that has at least one capture group and
whose compiled pattern matches at the start of the domain (Python
re.match semantics: the match need not extend to the end unless the
pattern itself is $-anchored, and the captured text may be empty); if
no rule so matches, the truncated domain is returned unchanged; with
the single rule ^.+\.(cloudfront\.net)$, normalizing
"x.y.cloudfront.net" yields "cloudfront.net". -/
theorem C4_rule_step :
    (∀ (d : Str) (ps : List Rule),
        (∀ q ∈ ps, q.applyOpt d = none) →
        apply_pattern_normalization d ps = d)
    ∧ (∀ (d : Str) (l1 l2 : List Rule) (p : Rule) (cap : Str),
        (∀ q ∈ l1, q.applyOpt d = none) → p.applyOpt d = some cap →
        apply_pattern_normalization d (l1 ++ p :: l2) = cap)
    ∧ apply_pattern_normalization "x.y.cloudfront.net".toList [cloudfrontRule]
        = "cloudfront.net".toList := by
  refine ⟨?_, ?_, by decide⟩
  · intro d ps h
    induction ps with
    | nil => rfl
    | cons q qs ih =>
        have hq : q.applyOpt d = none := h q (List.mem_cons_self q qs)
        simp only [apply_pattern_normalization, hq]
        exact ih (fun r hr => h r (List.mem_cons_of_mem q hr))
  · intro d l1 l2 p cap h hp
    induction l1 with
    | nil => simp [apply_pattern_normalization, hp]
    | cons q qs ih =>
        have hq : q.applyOpt d = none := h q (List.mem_cons_self q qs)
        simp only [List.cons_append, apply_pattern_normalization, hq]
        exact ih (fun r hr => h r (List.mem_cons_of_mem q hr))

/-- C1: conservation: for every input URL sequence, rule list and
positive batch size, the sum of the per-domain counts of the final
result plus its rejected count equals the number of input URLs whose
extracted host is non-empty; URLs whose extraction fails or yields an
empty host contribute to neither term. -/
theorem C1_conservation (urls : List RawURL) (patterns : List Rule)
    (bs : Nat) (hbs : 0 < bs) :
    (∑ d ∈ (extract_domains_sequential urls patterns bs).counts.toFinset,
        (extract_domains_sequential urls patterns bs).counts.count d)
      + (extract_domains_sequential urls patterns bs).removed
      = (urls.filter hasNonemptyHost).length := by
  rw [extract_eq_single urls patterns bs hbs, Multiset.toFinset_sum_count_eq]
  exact batch_conservation urls patterns

/-- C1 witness: conservation on a concrete four-URL input containing a
counted URL, an empty-host URL, a parse failure and a rejected URL. -/
theorem C1_witness :
    (0 < 2) ∧
    ((∑ d ∈ (extract_domains_sequential
          [⟨some "example.com".toList⟩, ⟨some []⟩, ⟨none⟩, ⟨some "bad".toList⟩]
          [] 2).counts.toFinset,
        (extract_domains_sequential
          [⟨some "example.com".toList⟩, ⟨some []⟩, ⟨none⟩, ⟨some "bad".toList⟩]
          [] 2).counts.count d)
      + (extract_domains_sequential
          [⟨some "example.com".toList⟩, ⟨some []⟩, ⟨none⟩, ⟨some "bad".toList⟩]
          [] 2).removed
      = (([⟨some "example.com".toList⟩, ⟨some []⟩, ⟨none⟩,
          ⟨some "bad".toList⟩] : List RawURL).filter hasNonemptyHost).length) :=
  ⟨by decide,
   C1_conservation
     [⟨some "example.com".toList⟩, ⟨some []⟩, ⟨none⟩, ⟨some "bad".toList⟩]
     [] 2 (by decide)⟩

/-- C2: merge invariance: for a fixed input and rule list, merging the
per-batch results in any completion order (any permutation, as in the
parallel path) yields the same final aggregate as the sequential path,
and the aggregate is independent of the (positive) batch size; worker
count only selects between these two paths. -/
theorem C2_merge_invariance (urls : List RawURL) (patterns : List Rule)
    (bs1 bs2 : Nat) (h1 : 0 < bs1) (h2 : 0 < bs2)
    (completed : List BatchResult)
    (hperm : completed.Perm
      ((listChunks bs2 urls).map (fun b => process_url_batch b patterns))) :
    mergeResults completed = extract_domains_sequential urls patterns bs1 ∧
    extract_domains_sequential urls patterns bs1
      = extract_domains_sequential urls patterns bs2 := by
  have e1 := extract_eq_single urls patterns bs1 h1
  have e2 := extract_eq_single urls patterns bs2 h2
  have e2' := e2
  unfold extract_domains_sequential at e2'
  constructor
  · rw [mergeResults_perm hperm, e2', e1]
  · rw [e1, e2]

/-- C2 witness: a two-batch input merged in reversed completion order
with batch size 1 agrees with the sequential batch-size-2 result. -/
theorem C2_witness :
    (0 < 2) ∧ (0 < 1) ∧
    (([process_url_batch [⟨some "b.org".toList⟩] [],
       process_url_batch [⟨some "a.com".toList⟩] []] : List BatchResult).Perm
      ((listChunks 1 [(⟨some "a.com".toList⟩ : RawURL), ⟨some "b.org".toList⟩]).map
        (fun b => process_url_batch b []))) ∧
    mergeResults
        [process_url_batch [⟨some "b.org".toList⟩] [],
         process_url_batch [⟨some "a.com".toList⟩] []]
      = extract_domains_sequential
          [⟨some "a.com".toList⟩, ⟨some "b.org".toList⟩] [] 2 := by
  have e : listChunks 1 [(⟨some "a.com".toList⟩ : RawURL), ⟨some "b.org".toList⟩]
      = [[⟨some "a.com".toList⟩], [⟨some "b.org".toList⟩]] := by
    simp [listChunks_cons, listChunks_nil]
  have hperm : ([process_url_batch [⟨some "b.org".toList⟩] [],
       process_url_batch [⟨some "a.com".toList⟩] []] : List BatchResult).Perm
      ((listChunks 1 [(⟨some "a.com".toList⟩ : RawURL), ⟨some "b.org".toList⟩]).map
        (fun b => process_url_batch b [])) := by
    rw [e]
    decide
  exact ⟨by decide, by decide, hperm,
   (C2_merge_invariance [⟨some "a.com".toList⟩, ⟨some "b.org".toList⟩] [] 2 1
     (by decide) (by decide)
     [process_url_batch [⟨some "b.org".toList⟩] [],
      process_url_batch [⟨some "a.com".toList⟩] []]
     hperm).1⟩

/-- C3: per-URL classification: each URL either (1) fails extraction
or has an empty host and leaves the accumulator unchanged, (2) has a
raw host failing the TLD check and only increments the rejected count
by exactly 1, (3) passes the raw check but fails the post-
normalization check and only increments the rejected count by exactly
1, or (4) passes both checks, gets its normalized domain inserted into
the unique set, and increments that domain's count by exactly 1. -/
theorem C3_classification (patterns : List Rule) (acc : BatchResult) (u : RawURL) :
    ((u.parseResult = none ∨ u.parseResult = some []) →
        processURL patterns acc u = acc)
    ∧ (∀ h, u.parseResult = some h → h ≠ [] → has_valid_tld h = false →
        processURL patterns acc u = { acc with removed := acc.removed + 1 })
    ∧ (∀ h, u.parseResult = some h → h ≠ [] → has_valid_tld h = true →
        has_valid_tld (normalize_domain h patterns) = false →
        processURL patterns acc u = { acc with removed := acc.removed + 1 })
    ∧ (∀ h, u.parseResult = some h → h ≠ [] → has_valid_tld h = true →
        has_valid_tld (normalize_domain h patterns) = true →
        processURL patterns acc u
            = { acc with
                  domains := insert (normalize_domain h patterns) acc.domains,
                  counts := (normalize_domain h patterns) ::ₘ acc.counts }
          ∧ (processURL patterns acc u).counts.count (normalize_domain h patterns)
            = acc.counts.count (normalize_domain h patterns) + 1) := by
  refine ⟨?_, ?_, ?_, ?_⟩
  · rintro (hp | hp) <;> simp [processURL, hp]
  · intro h hp hne hbad
    simp [processURL, hp, hne, hbad]
  · intro h hp hne hok hbad
    simp [processURL, hp, hne, hok, hbad]
  · intro h hp hne hok hok2
    constructor
    · simp [processURL, hp, hne, hok, hok2]
    · simp [processURL, hp, hne, hok, hok2, Multiset.count_cons_self]

/-- C3 witness: classification applied in case (4) to a concrete URL
that passes both TLD checks. -/
theorem C3_witness :
    (some "example.com".toList = some "example.com".toList) ∧
    ("example.com".toList ≠ []) ∧
    (has_valid_tld "example.com".toList = true) ∧
    (has_valid_tld (normalize_domain "example.com".toList []) = true) ∧
    (processURL [] emptyResult ⟨some "example.com".toList⟩
        = { emptyResult with
              domains := insert (normalize_domain "example.com".toList [])
                emptyResult.domains,
              counts := (normalize_domain "example.com".toList []) ::ₘ
                emptyResult.counts }
      ∧ (processURL [] emptyResult ⟨some "example.com".toList⟩).counts.count
            (normalize_domain "example.com".toList [])
        = emptyResult.counts.count (normalize_domain "example.com".toList []) + 1) :=
  ⟨rfl, by decide, by decide, by decide,
   (C3_classification [] emptyResult ⟨some "example.com".toList⟩).2.2.2
     "example.com".toList rfl (by decide) (by decide) (by decide)⟩

/-- C10: implicit result invariant: every per-batch result and every
merge of results satisfying it has a unique-domain set equal to the
key set of the count mapping, with every key's count at least 1; in
particular the merged final result of the sequential path satisfies
it. -/
theorem C10_result_invariant :
    (∀ (batch : List RawURL) (patterns : List Rule),
        ResultInv (process_url_batch batch patterns))
    ∧ (∀ rs : List BatchResult,
        (∀ r ∈ rs, ResultInv r) → ResultInv (mergeResults rs))
    ∧ (∀ (urls : List RawURL) (patterns : List Rule) (bs : Nat),
        ResultInv (extract_domains_sequential urls patterns bs)) := by
  have hfst : ∀ r : BatchResult, r.domains = r.counts.toFinset → ResultInv r := by
    intro r h
    refine ⟨h, fun d hd => Multiset.one_le_count_iff_mem.mpr ?_⟩
    rw [h] at hd
    exact Multiset.mem_toFinset.mp hd
  have hbatch : ∀ (batch : List RawURL) (patterns : List Rule),
      (process_url_batch batch patterns).domains
        = (process_url_batch batch patterns).counts.toFinset := by
    intro batch patterns
    unfold process_url_batch
    suffices hgen : ∀ acc : BatchResult, acc.domains = acc.counts.toFinset →
        (batch.foldl (processURL patterns) acc).domains
          = (batch.foldl (processURL patterns) acc).counts.toFinset by
      exact hgen emptyResult (by simp [emptyResult])
    induction batch with
    | nil => intro acc h; exact h
    | cons u us ih =>
        intro acc h
        simp only [List.foldl_cons]
        refine ih _ ?_
        unfold processURL
        cases u.parseResult with
        | none => exact h
        | some domain =>
            by_cases h1 : domain = []
            · simp [h1, h]
            · by_cases h2 : has_valid_tld domain
              · by_cases h3 : has_valid_tld (normalize_domain domain patterns)
                · simp [h1, h2, h3, h, Multiset.toFinset_cons]
                · simp [h1, h2, h3, h]
              · simp [h1, h2, h]
  have hmerge : ∀ rs : List BatchResult,
      (∀ r ∈ rs, r.domains = r.counts.toFinset) →
      (mergeResults rs).domains = (mergeResults rs).counts.toFinset := by
    intro rs h
    induction rs with
    | nil => simp [mergeResults, emptyResult]
    | cons r rest ih =>
        rw [mergeResults_cons]
        have hr := h r (List.mem_cons_self r rest)
        have hrest := ih (fun q hq => h q (List.mem_cons_of_mem r hq))
        simp [mergeTwo, hr, hrest, Multiset.toFinset_add]
  refine ⟨fun batch patterns => hfst _ (hbatch batch patterns),
          fun rs h => hfst _ (hmerge rs (fun r hr => (h r hr).1)),
          fun urls patterns bs => hfst _ (hmerge _ ?_)⟩
  intro r hr
  obtain ⟨b, _, rfl⟩ := List.mem_map.mp hr
  exact hbatch b patterns

/-- C10 witness: the merge preservation applied to a concrete
singleton list of batch results. -/
theorem C10_witness :
    (∀ r ∈ [process_url_batch [⟨some "example.com".toList⟩] []], ResultInv r) ∧
    ResultInv (mergeResults [process_url_batch [⟨some "example.com".toList⟩] []]) := by
  have h1 : ∀ r ∈ [process_url_batch [⟨some "example.com".toList⟩] []], ResultInv r := by
    intro r hr
    constructor
    · rw [List.mem_singleton.mp hr]
      decide
    · rw [List.mem_singleton.mp hr]
      decide
  exact ⟨h1, C10_result_invariant.2.1 _ h1⟩

/-- C4 witness: the first-match-wins characterization applied with the
cloudfront rule first in the list. -/
theorem C4_witness :
    (∀ q ∈ ([] : List Rule), q.applyOpt "x.y.cloudfront.net".toList = none) ∧
    cloudfrontRule.applyOpt "x.y.cloudfront.net".toList
      = some "cloudfront.net".toList ∧
    apply_pattern_normalization "x.y.cloudfront.net".toList
        ([] ++ cloudfrontRule :: [ruleBStar]) = "cloudfront.net".toList :=
  ⟨by simp, by decide,
   C4_rule_step.2.1 "x.y.cloudfront.net".toList [] [ruleBStar] cloudfrontRule
     "cloudfront.net".toList (by simp) (by decide)⟩

/-- C6: structural truncation. Splitting on dots yields one more label
than the number of dots, so more than two dots means more than three
labels; with more than two dots the structural step keeps exactly the
last three labels joined by dots, and otherwise leaves the domain
unchanged; normalize("a.b.c.d.e", []) = "c.d.e". -/
theorem C6_structural_truncation :
    (∀ d : Str,
      ((splitDots d).length = d.count '.' + 1) ∧
      (2 < d.count '.' →
        normalize_domain d [] =
          List.intercalate ['.'] ((splitDots d).drop ((splitDots d).length - 3))) ∧
      (d.count '.' ≤ 2 → normalize_domain d [] = d))
    ∧ normalize_domain "a.b.c.d.e".toList [] = "c.d.e".toList := by
  constructor
  · intro d
    refine ⟨splitDots_length d, ?_, ?_⟩
    · intro h
      have hd : d ≠ [] := by
        intro h0
        rw [h0] at h
        simp at h
      unfold normalize_domain
      simp [hd, Nat.not_le.mpr h]
    · intro h
      unfold normalize_domain
      by_cases hd : d = []
      · simp [hd]
      · simp [hd, h]
  · decide

/-- C6 witness: the general statement applied to a concrete domain
with more than two dots. -/
theorem C6_witness :
    (2 < ("a.b.c.d.e".toList : Str).count '.') ∧
    normalize_domain "a.b.c.d.e".toList [] =
      List.intercalate ['.']
        ((splitDots "a.b.c.d.e".toList).drop
          ((splitDots "a.b.c.d.e".toList).length - 3)) :=
  ⟨by decide, (C6_structural_truncation.1 "a.b.c.d.e".toList).2.1 (by decide)⟩

/-- C7: idempotence of normalization on canonical inputs: when d has
at most three labels (at most two dots) and is a fixpoint of the rule
step, normalizing twice equals normalizing once. -/
theorem C7_idempotence (d : Str) (R : List Rule)
    (h1 : d.count '.' ≤ 2) (h2 : apply_pattern_normalization d R = d) :
    normalize_domain (normalize_domain d R) R = normalize_domain d R := by
  simp only [normalize_domain_fixpoint d R h1 h2]

/-- C7 witness: idempotence at a concrete canonical domain. -/
theorem C7_witness :
    (("ab.cd".toList : Str).count '.' ≤ 2) ∧
    apply_pattern_normalization "ab.cd".toList [cloudfrontRule] = "ab.cd".toList ∧
    normalize_domain (normalize_domain "ab.cd".toList [cloudfrontRule]) [cloudfrontRule]
      = normalize_domain "ab.cd".toList [cloudfrontRule] :=
  ⟨by decide, by decide, C7_idempotence "ab.cd".toList [cloudfrontRule] (by decide) (by decide)⟩

/-- C8: strict pattern loading: with an explicitly given path, a
missing file fails with a file-not-found error; otherwise every
non-empty non-comment line is compiled, and if any line fails, loading
fails with an aggregated error naming the file and the line number of
every failing line, returning no (not even a partial) rule list; if
all lines compile, the full compiled list is returned in file order. -/
theorem C8_strict_loading (compile : Str → Option Rule) (path : Str)
    (file : Option (List Str)) :
    (file = none →
        load_domain_patterns_strict compile path file
          = .error (.fileNotFound path))
    ∧ (∀ lines, file = some lines →
        ((((collectLines lines).filter (fun pl => (compile pl.1).isNone)) ≠ [] →
          load_domain_patterns_strict compile path file
            = .error (.invalidPatterns path
                (((collectLines lines).filter
                    (fun pl => (compile pl.1).isNone)).map Prod.snd)))
        ∧ ((((collectLines lines).filter (fun pl => (compile pl.1).isNone)) = []) →
          load_domain_patterns_strict compile path file
            = .ok ((collectLines lines).filterMap (fun pl => compile pl.1))))) := by
  constructor
  · intro h
    subst h
    rfl
  · intro lines h
    subst h
    simp only [load_domain_patterns_strict, compileAll_spec]
    constructor
    · intro hne
      rw [if_neg (by simpa using hne)]
    · intro he
      rw [if_pos (by simp [he])]

/-- C8 witness: a file whose fourth line fails to compile aborts with
that line number and no partial rule list. -/
theorem C8_witness :
    (((collectLines ["ok".toList, "#c".toList, [], "bad".toList]).filter
        (fun pl => ((fun s => if s = "ok".toList then some ruleBStar else none)
          pl.1).isNone)) ≠ []) ∧
    load_domain_patterns_strict
        (fun s => if s = "ok".toList then some ruleBStar else none)
        "pats.txt".toList
        (some ["ok".toList, "#c".toList, [], "bad".toList])
      = .error (.invalidPatterns "pats.txt".toList
          (((collectLines ["ok".toList, "#c".toList, [], "bad".toList]).filter
              (fun pl => ((fun s => if s = "ok".toList then some ruleBStar else none)
                pl.1).isNone)).map Prod.snd)) :=
  ⟨by decide,
   ((C8_strict_loading
      (fun s => if s = "ok".toList then some ruleBStar else none)
      "pats.txt".toList
      (some ["ok".toList, "#c".toList, [], "bad".toList])).2
     ["ok".toList, "#c".toList, [], "bad".toList] rfl).1 (by decide)⟩

/-- C9: lenient fallback loading: with no explicit path, the lines of
the conventional default file that compile are kept (failing lines
dropped non-fatally); when zero rules survive (file absent, empty, or
all lines failing), the compiled built-in default list is returned
instead, and loading fails only when the built-in list itself yields
zero compiled rules. -/
theorem C9_lenient_loading (compile : Str → Option Rule)
    (defaultFile : Option (List Str)) :
    ((filePats defaultFile).filterMap (fun pl => compile pl.1) ≠ [] →
      load_domain_patterns_lenient compile defaultFile
        = .ok ((filePats defaultFile).filterMap (fun pl => compile pl.1)))
    ∧ ((filePats defaultFile).filterMap (fun pl => compile pl.1) = [] →
       ((builtinPats.filterMap (fun pl => compile pl.1) ≠ [] →
        load_domain_patterns_lenient compile defaultFile
          = .ok (builtinPats.filterMap (fun pl => compile pl.1)))
       ∧ (builtinPats.filterMap (fun pl => compile pl.1) = [] →
        load_domain_patterns_lenient compile defaultFile
          = .error .noUsablePatterns))) := by
  simp only [load_domain_patterns_lenient, compileAll_spec]
  constructor
  · intro hne
    rw [if_pos hne]
  · intro he
    rw [if_neg (by simp [he])]
    constructor
    · intro hbne
      rw [if_pos hbne]
    · intro hbe
      rw [if_neg (by simp [hbe])]

/-- C9 witness: when nothing compiles at all (file absent and a
compile function rejecting everything), loading fails fatally. -/
theorem C9_witness :
    ((filePats none).filterMap
        (fun pl => (fun _ : Str => (none : Option Rule)) pl.1) = []) ∧
    (builtinPats.filterMap
        (fun pl => (fun _ : Str => (none : Option Rule)) pl.1) = []) ∧
    load_domain_patterns_lenient (fun _ => none) none
      = .error .noUsablePatterns :=
  ⟨by decide, by decide,
   ((C9_lenient_loading (fun _ => none) none).2 (by decide)).2 (by decide)⟩

end Historee
